import Mathlib

/-!
Shallow embedding of `eth-gas-delta` (src/src/main.rs), a tool that aligns
gas-usage reports across input files and renders a table of averages and
percentage deltas.  Rust `isize` arithmetic is modelled by `Int` (input sizes
are tiny, no overflow is reachable), `f64` percentage arithmetic is modelled
exactly by `ℚ`, and the two `HashMap`s (the per-file `methods` map and the
aggregation map `data`) are modelled by association lists carried in their
(unspecified) iteration order.
-/

namespace GasDelta

/-- Rust `struct RawDeployment { name, gas_data }` (main.rs:23-27). -/
structure RawDeployment where
  name : String
  gas_data : List Int
deriving DecidableEq, Repr

/-- Rust `struct MethodIdentifier { contract, method }` (main.rs:49-52). -/
structure MethodIdentifier where
  contract : String
  method : String
deriving DecidableEq, Repr

/-- Rust `struct RawMethod { key, method, signature, gas_data, number_of_calls }` (main.rs:30-40). -/
structure RawMethod where
  key : String
  method : MethodIdentifier
  signature : String
  gas_data : List Int
  number_of_calls : Nat
deriving DecidableEq, Repr

/-- Rust `struct Info { methods: HashMap<String, RawMethod>, deployments: Vec<RawDeployment> }`
(main.rs:17-20); the hash map is carried as a list of key/value pairs in
iteration order. -/
structure Info where
  methods : List (String × RawMethod)
  deployments : List RawDeployment
deriving DecidableEq, Repr

/-- Rust `struct GasReport { info: Info }` (main.rs:12-14). -/
structure GasReport where
  info : Info
deriving DecidableEq, Repr

/-- Rust `enum Entry { Deployment(RawDeployment), Method(RawMethod) }` (main.rs:70-74). -/
inductive Entry where
  | deployment : RawDeployment → Entry
  | method : RawMethod → Entry
deriving DecidableEq, Repr

/-- Rust `Entry::gas_data` (main.rs:116-121). -/
def Entry.gas_data : Entry → List Int
  | .deployment d => d.gas_data
  | .method m => m.gas_data

/-- Rust `Entry::avg_gas` (main.rs:106-110): integer sum divided by length with
Rust `isize` division, i.e. truncation toward zero (`Int.tdiv`). -/
def Entry.avg_gas (e : Entry) : Int :=
  Int.tdiv e.gas_data.sum (e.gas_data.length : Int)

/-- Rust `Entry::has_gas_data` (main.rs:112-114). -/
def Entry.has_gas_data (e : Entry) : Bool :=
  e.gas_data.length > 0

/-- Rust `impl Ord for Entry` (main.rs:94-103): deployments compare greater than
methods; deployments by `name`, methods by `method` name only. -/
def Entry.cmpE : Entry → Entry → Ordering
  | .deployment l, .deployment r => compare l.name r.name
  | .deployment _, .method _ => .gt
  | .method _, .deployment _ => .lt
  | .method l, .method r => compare l.method.method r.method.method

/-- Rust `const BLOCK_LIMIT: isize = 30_000_000` (main.rs:124). -/
def BLOCK_LIMIT : Int := 30000000

/-- Rust `const MARGIN: f64 = 0.1` (main.rs:125), as an exact rational. -/
def MARGIN : ℚ := 1/10

/-- The display key of a method entry:
`format!("\x1b[90m{contract}.\x1b[0m{method}")` (main.rs:152-155). -/
def methodKey (m : MethodIdentifier) : String :=
  "\x1b[90m" ++ m.contract ++ "." ++ "\x1b[0m" ++ m.method

/-! ### Formatting

Rust `format!` float fields of the program: `{:4.1}` and `{:+5.1}` print one
decimal digit (value rounded to the nearest tenth) right-padded to a minimum
width; `{:+}` on an integer always prints a sign.  The rounding of the binary
is round-to-nearest on the `f64` value; on the exact rational model we use
`round` (ties are not hit by any value this program is proved about). -/

/-- Digits of a signed tenths count `t`, as `"<t/10>.<t%10>"` with an
optional leading `-`. -/
def fmt1Tenths (t : Int) : String :=
  (if t < 0 then "-" else "") ++ toString (t.natAbs / 10) ++ "." ++ toString (t.natAbs % 10)

/-- Same as `fmt1Tenths` but with a mandatory sign (Rust `{:+.1}`). -/
def fmtSigned1Tenths (t : Int) : String :=
  (if t < 0 then "-" else "+") ++ toString (t.natAbs / 10) ++ "." ++ toString (t.natAbs % 10)

/-- One-decimal rendering of a rational (Rust `{:.1}` on `f64`). -/
def fmt1 (x : ℚ) : String := fmt1Tenths (round (10 * x))

/-- One-decimal signed rendering of a rational (Rust `{:+.1}` on `f64`). -/
def fmtSigned1 (x : ℚ) : String := fmtSigned1Tenths (round (10 * x))

/-- Left-pad with spaces to a minimum width (Rust numeric field width). -/
def padLeft (w : Nat) (s : String) : String :=
  String.mk (List.replicate (w - s.length) ' ') ++ s

/-- Rust `{:+}` on an integer. -/
def fmtSignedInt (n : Int) : String :=
  if n < 0 then toString n else "+" ++ toString n

/-- Exactly `100f64 * avg / BLOCK_LIMIT` (main.rs:206), exactly. -/
def blockPercent (avg : Int) : ℚ := 100 * (avg : ℚ) / (BLOCK_LIMIT : ℚ)

/-- The finite value of `100f64 * (avg - first_avg) / first_avg`
(main.rs:186-187) as an exact rational; the full `f64` result including
`NaN`, the infinities and negative zero is `deltaPercentF`. -/
def deltaPercent (avg first : Int) : ℚ := 100 * ((avg : ℚ) - (first : ℚ)) / (first : ℚ)

/-- The ANSI color code chosen for a finite delta percentage
(main.rs:188-194). -/
def colorCode (percent : ℚ) : Nat :=
  if percent > MARGIN then 91 else if percent < -MARGIN then 92 else 0

/-- The possible values of the `f64` percentage `100f64 * (avg - first) / first`:
a finite rational (positive zero included), negative zero, the two
infinities, or `NaN`. -/
inductive F64Pct where
  | num : ℚ → F64Pct
  | negZero : F64Pct
  | posInf : F64Pct
  | negInf : F64Pct
  | nan : F64Pct
deriving DecidableEq, Repr

/-- The exact `f64` value of `100f64 * (avg - first) / first` (main.rs:186-187)
for integral `avg`, `first`: a zero baseline gives `±inf` or `NaN`
(`0.0 / 0.0`); an equal average over a negative baseline gives `-0.0`
(`+0.0` divided by a negative); every other case is the finite rational
`deltaPercent` (idealized, ignoring only the final rounding of a non-zero
finite quotient). -/
def deltaPercentF (avg first : Int) : F64Pct :=
  if first = 0 then
    (if 0 < avg then .posInf else if avg < 0 then .negInf else .nan)
  else if avg = first ∧ first < 0 then .negZero
  else .num (deltaPercent avg first)

/-- The color comparisons of main.rs:188-194 on the full `f64` value:
`NaN` compares false on both sides (neutral), `+inf > 0.1` is red,
`-inf < -0.1` is green, and both zeros are neutral. -/
def colorCodeF : F64Pct → Nat
  | .num q => colorCode q
  | .negZero => 0
  | .posInf => 91
  | .negInf => 92
  | .nan => 0

/-- Rust `{:+.1}` on the full `f64` value: `+NaN`, `+inf`, `-inf` and
`-0.0` print as such. -/
def fmtF64Pct : F64Pct → String
  | .num q => fmtSigned1 q
  | .negZero => "-0.0"
  | .posInf => "+inf"
  | .negInf => "-inf"
  | .nan => "+NaN"

/-- Baseline-less cell: `format!("{} ({:4.1}%)", avg, 100*avg/BLOCK_LIMIT)`
(main.rs:202-207). -/
def absoluteCell (avg : Int) : String :=
  toString avg ++ " (" ++ padLeft 4 (fmt1 (blockPercent avg)) ++ "%)"

/-- Delta cell: `format!("\x1b[{color}m{:+} ({:+5.1}%)\x1b[0m", avg - first, percent)`
(main.rs:185-200), with the `f64` percent modelled exactly by `F64Pct` so
that a zero baseline renders its real `NaN`/`inf` text. -/
def deltaCell (avg first : Int) : String :=
  let percent := deltaPercentF avg first
  "\x1b[" ++ toString (colorCodeF percent) ++ "m" ++ fmtSignedInt (avg - first)
    ++ " (" ++ padLeft 5 (fmtF64Pct percent) ++ "%)" ++ "\x1b[0m"

/-! ### The Entry Aligner (main.rs:132-157)

`data : HashMap<String, Vec<Option<Entry>>>` is modelled as an association
list in insertion order; `data.entry(key).or_insert(vec![None; file_count])[index] = Some(entry)`
becomes `upsert`. -/

/-- One aggregation-map state: display key ↦ one optional entry per file. -/
abbrev AlignedData := List (String × List (Option Entry))

/-- Rust `data.entry(k).or_insert(vec![None; N])[i] = Some(e)` on the association
list model: update the slot of an existing key in place, or append the key
with a fresh all-`none` vector whose slot `i` is set. -/
def upsert (N : Nat) (k : String) (i : Nat) (e : Entry) : AlignedData → AlignedData
  | [] => [(k, (List.replicate N (none : Option Entry)).set i (some e))]
  | (k', v) :: rest =>
    if k' = k then (k', v.set i (some e)) :: rest
    else (k', v) :: upsert N k i e rest

/-- The deployments loop of one file (main.rs:140-147): skip empty
`gas_data`, otherwise upsert under the deployment's name at column `i`. -/
def insertDeployments (N i : Nat) (ds : List RawDeployment) (d : AlignedData) : AlignedData :=
  ds.foldl (fun acc depl =>
    if depl.gas_data.length = 0 then acc
    else upsert N depl.name i (Entry.deployment depl) acc) d

/-- The methods loop of one file (main.rs:148-157): skip empty `gas_data`,
otherwise upsert under the formatted method key at column `i`. -/
def insertMethods (N i : Nat) (ms : List (String × RawMethod)) (d : AlignedData) : AlignedData :=
  ms.foldl (fun acc p =>
    if p.2.gas_data.length = 0 then acc
    else upsert N (methodKey p.2.method) i (Entry.method p.2) acc) d

/-- Processing of one input file at column `i` (deployments first, then
methods, main.rs:140-157). -/
def insertFile (N i : Nat) (r : GasReport) (d : AlignedData) : AlignedData :=
  insertMethods N i r.info.methods (insertDeployments N i r.info.deployments d)

/-- The file loop (main.rs:136-165): files processed in order, each at its
own column index. -/
def buildAux (N : Nat) : Nat → List GasReport → AlignedData → AlignedData
  | _, [], d => d
  | i, r :: rest, d => buildAux N (i + 1) rest (insertFile N i r d)

/-- The fully aggregated map for a list of input reports
(`file_count = args.files.len()`, main.rs:135). -/
def buildData (rs : List GasReport) : AlignedData :=
  buildAux rs.length 0 rs []

/-! ### Sorting and rendering (main.rs:176-220) -/

/-- Lookup in the aggregation map. -/
def dataLookup (k : String) : AlignedData → Option (List (Option Entry))
  | [] => none
  | (k', v) :: rest => if k' = k then some v else dataLookup k rest

/-- Lexicographic strict comparison of character lists by codepoint; for
UTF-8 strings this is exactly Rust's byte-wise `Ord` on `String`. -/
def charListLt : List Char → List Char → Bool
  | [], [] => false
  | [], _ :: _ => true
  | _ :: _, [] => false
  | a :: as, b :: bs => if a < b then true else if b < a then false else charListLt as bs

/-- Computable `a ≤ b` on strings (no smaller string is strictly below). -/
def strLeB (a b : String) : Bool := !(charListLt b.data a.data)

/-- Insertion into a key-sorted association list. -/
def insertSorted (p : String × List (Option Entry)) : AlignedData → AlignedData
  | [] => [p]
  | q :: rest => if strLeB p.1 q.1 then p :: q :: rest else q :: insertSorted p rest

/-- Rust `data.iter().sorted()` (main.rs:176): the pairs sorted ascending; keys
are distinct so this is a sort by the raw key string. -/
def sortData (d : AlignedData) : AlignedData := d.foldr insertSorted []

/-- One cell of the per-row column loop (main.rs:181-217): `first` is the
`first_avg_gas` state when the cell is reached. -/
def renderCell (first : Option Int) (avg : Int) : String :=
  match first with
  | some f => deltaCell avg f
  | none => absoluteCell avg

/-- The per-row column loop (main.rs:179-218): walk the slots with the
running `first_avg_gas` state, which is set only at index `0` and only by a
present entry with data. -/
def renderColsAux (first : Option Int) (i : Nat) : List (Option Entry) → List String
  | [] => []
  | c :: rest =>
    match c with
    | some e =>
      if e.has_gas_data then
        renderCell first e.avg_gas ::
          renderColsAux (if i = 0 then some e.avg_gas else first) (i + 1) rest
      else "" :: renderColsAux first (i + 1) rest
    | none => "" :: renderColsAux first (i + 1) rest

/-- One body row: the display key followed by one cell per input file. -/
def renderRow (p : String × List (Option Entry)) : List String :=
  p.1 :: renderColsAux none 0 p.2

/-- All body rows of the table, in the order they are pushed to the builder
(main.rs:176-220). -/
def renderBody (rs : List GasReport) : List (List String) :=
  (sortData (buildData rs)).map renderRow

/-! ### Specification-side characterizations

The following definitions are not translations of source lines; they are
explicit descriptions of the aligner's behaviour, proved below to coincide
with `buildData`/`renderColsAux`. -/

/-- The entry (if any) that file-level processing of the deployment list
leaves at display key `k`: the *last* deployment with that name and a
non-empty sample list wins. -/
def deplAt (k : String) : List RawDeployment → Option Entry
  | [] => none
  | depl :: rest =>
    match deplAt k rest with
    | some e => some e
    | none =>
      if depl.gas_data.length ≠ 0 ∧ depl.name = k then some (Entry.deployment depl) else none

/-- The entry (if any) that file-level processing of the method list leaves
at display key `k`: the *last* method whose formatted key is `k` and whose
sample list is non-empty wins. -/
def methAt (k : String) : List (String × RawMethod) → Option Entry
  | [] => none
  | p :: rest =>
    match methAt k rest with
    | some e => some e
    | none =>
      if p.2.gas_data.length ≠ 0 ∧ methodKey p.2.method = k then some (Entry.method p.2) else none

/-- The column content a single file contributes at display key `k`
(methods are processed after deployments, so a matching method wins). -/
def fileEntryAt (k : String) (r : GasReport) : Option Entry :=
  match methAt k r.info.methods with
  | some e => some e
  | none => deplAt k r.info.deployments

/-- The display key under which an entry is inserted. -/
def entryKeyOf : Entry → String
  | .deployment d => d.name
  | .method m => methodKey m.method

/-- Overwrite slots `i, i+1, …` of `v` with the present values of `os`. -/
def overwriteFrom (i : Nat) (os : List (Option Entry)) (v : List (Option Entry)) :
    List (Option Entry) :=
  match os with
  | [] => v
  | o :: rest =>
    overwriteFrom (i + 1) rest (match o with | some e => v.set i (some e) | none => v)

/-- The keys of the aggregation map, in insertion order. -/
def keysOf (d : AlignedData) : List String := d.map Prod.fst

/-- Effect of one file's contribution `o` on the stored vector of a key:
nothing, or slot `i` of the existing (or fresh all-`none`) vector set. -/
def slotWrite (N i : Nat) (o : Option Entry) (prev : Option (List (Option Entry))) :
    Option (List (Option Entry)) :=
  match o with
  | none => prev
  | some e => some ((prev.getD (List.replicate N none)).set i (some e))

/-- The stored vector of a key after files contributing `os` have been
processed starting from state `prev`, when the files write slots `i, i+1, …`. -/
def lookAfter (N i : Nat) (os : List (Option Entry))
    (prev : Option (List (Option Entry))) : Option (List (Option Entry)) :=
  match prev with
  | some v => some (overwriteFrom i os v)
  | none =>
    if os.all (fun o => o.isNone) then none
    else some (overwriteFrom i os (List.replicate N none))

/-- One cell of the column loop at a fixed `first_avg_gas` state: what every
column of index `≥ 1` renders. -/
def colCell (first : Option Int) (c : Option Entry) : String :=
  match c with
  | some e => if e.has_gas_data then renderCell first e.avg_gas else ""
  | none => ""

/-- A string whose first character is an ordinary printable one (codepoint
at least `0x20`, in particular above the escape character `0x1b`). -/
def nameOk (s : String) : Bool :=
  match s.data with
  | [] => false
  | c :: _ => 32 ≤ c.toNat

/-- A row of the aggregation map holding at least one deployment entry. -/
def rowHasDeployment (p : String × List (Option Entry)) : Prop :=
  ∃ d, some (Entry.deployment d) ∈ p.2

/-- A row of the aggregation map holding at least one method entry. -/
def rowHasMethod (p : String × List (Option Entry)) : Prop :=
  ∃ m, some (Entry.method m) ∈ p.2

/-- No two methods of the report that survive the empty-sample filter share
a formatted display key. -/
def methodsNodupOk (r : GasReport) : Prop :=
  ((r.info.methods.filter (fun p => !(p.2.gas_data.length == 0))).map
    (fun p => methodKey p.2.method)).Nodup

instance (r : GasReport) : Decidable (methodsNodupOk r) :=
  List.nodupDecidable _

/-! ### Concrete reports used in counterexamples and witnesses -/

/-- File A of the end-to-end scenario: deployment `Token`, samples `[200, 200]`. -/
def fileTokenA : GasReport := ⟨⟨[], [⟨"Token", [200, 200]⟩]⟩⟩

/-- File B of the end-to-end scenario: deployment `Token`, samples `[220, 220]`. -/
def fileTokenB : GasReport := ⟨⟨[], [⟨"Token", [220, 220]⟩]⟩⟩

/-- A report with a deployment whose name starts with the control character
`0x01` together with one ordinary method. -/
def ctrlFile : GasReport := ⟨⟨[("k1", ⟨"k", ⟨"A", "b"⟩, "s", [7], 1⟩)], [⟨"\x01z", [5]⟩]⟩⟩

/-- First of two distinct method identifiers whose formatted keys collide. -/
def collideM1 : RawMethod := ⟨"k1", ⟨"A.\x1b[0mB", "C"⟩, "s", [100], 1⟩

/-- Second of two distinct method identifiers whose formatted keys collide. -/
def collideM2 : RawMethod := ⟨"k2", ⟨"A", "B.\x1b[0mC"⟩, "s", [200], 1⟩

/-- The colliding report in one method-map iteration order. -/
def collideFileA : GasReport := ⟨⟨[("k1", collideM1), ("k2", collideM2)], []⟩⟩

/-- The colliding report in the other method-map iteration order. -/
def collideFileB : GasReport := ⟨⟨[("k2", collideM2), ("k1", collideM1)], []⟩⟩

/-- A two-method report with distinct formatted keys. -/
def permFileA : GasReport :=
  ⟨⟨[("a", ⟨"a", ⟨"C", "x"⟩, "s", [4], 1⟩), ("b", ⟨"b", ⟨"C", "y"⟩, "s", [6], 1⟩)], []⟩⟩

/-- Report `permFileA` with its method map in the opposite iteration order. -/
def permFileB : GasReport :=
  ⟨⟨[("b", ⟨"b", ⟨"C", "y"⟩, "s", [6], 1⟩), ("a", ⟨"a", ⟨"C", "x"⟩, "s", [4], 1⟩)], []⟩⟩

/-- A report with one printable-named deployment and one method. -/
def mixedFile : GasReport :=
  ⟨⟨[("k1", ⟨"k", ⟨"A", "b"⟩, "s", [7], 1⟩)], [⟨"Token", [5]⟩]⟩⟩

theorem dataLookup_upsert_self (N : Nat) (k : String) (i : Nat) (e : Entry) (d : AlignedData) :
    dataLookup k (upsert N k i e d) =
      some (((dataLookup k d).getD (List.replicate N none)).set i (some e)) := by
  induction d with
  | nil => simp [upsert, dataLookup]
  | cons p rest ih =>
    obtain ⟨k', v⟩ := p
    by_cases h : k' = k
    · subst h; simp [upsert, dataLookup]
    · simp only [upsert, dataLookup, if_neg h, ih]

theorem dataLookup_upsert_other (N : Nat) (k k' : String) (i : Nat) (e : Entry)
    (d : AlignedData) (h : k' ≠ k) :
    dataLookup k' (upsert N k i e d) = dataLookup k' d := by
  induction d with
  | nil =>
    have hne : ¬ k = k' := fun hh => h hh.symm
    simp [upsert, dataLookup, hne]
  | cons p rest ih =>
    obtain ⟨k'', v⟩ := p
    by_cases hk : k'' = k
    · subst hk
      have hne : ¬ k'' = k' := fun hh => h hh.symm
      simp [upsert, dataLookup, hne]
    · by_cases hk' : k'' = k'
      · subst hk'; simp [upsert, dataLookup, hk]
      · simp [upsert, dataLookup, hk, hk', ih]

theorem insertDeployments_lookup (N i : Nat) (ds : List RawDeployment) :
    ∀ (d : AlignedData) (k : String),
      dataLookup k (insertDeployments N i ds d) =
        match deplAt k ds with
        | none => dataLookup k d
        | some e =>
          some (((dataLookup k d).getD (List.replicate N none)).set i (some e)) := by
  induction ds with
  | nil => intro d k; rfl
  | cons depl rest ih =>
    intro d k
    have hstep : insertDeployments N i (depl :: rest) d =
        insertDeployments N i rest
          (if depl.gas_data.length = 0 then d
           else upsert N depl.name i (Entry.deployment depl) d) := rfl
    rw [hstep, ih]
    rcases hrest : deplAt k rest with _ | e
    · by_cases hlen : depl.gas_data.length = 0
      · simp [deplAt, hrest, hlen]
      · by_cases hname : depl.name = k
        · subst hname
          simp [deplAt, hrest, hlen, dataLookup_upsert_self]
        · have hne : k ≠ depl.name := fun hh => hname hh.symm
          simp [deplAt, hrest, hlen, hname, if_neg hlen,
            dataLookup_upsert_other N depl.name k i _ d hne]
    · have hgoal : deplAt k (depl :: rest) = some e := by
        simp [deplAt, hrest]
      rw [hgoal]
      by_cases hlen : depl.gas_data.length = 0
      · simp [hlen]
      · by_cases hname : depl.name = k
        · subst hname
          simp [hlen, dataLookup_upsert_self, List.set_set]
        · have hne : k ≠ depl.name := fun hh => hname hh.symm
          simp [hlen, dataLookup_upsert_other N depl.name k i _ d hne]

theorem insertMethods_lookup (N i : Nat) (ms : List (String × RawMethod)) :
    ∀ (d : AlignedData) (k : String),
      dataLookup k (insertMethods N i ms d) =
        match methAt k ms with
        | none => dataLookup k d
        | some e =>
          some (((dataLookup k d).getD (List.replicate N none)).set i (some e)) := by
  induction ms with
  | nil => intro d k; rfl
  | cons p rest ih =>
    intro d k
    have hstep : insertMethods N i (p :: rest) d =
        insertMethods N i rest
          (if p.2.gas_data.length = 0 then d
           else upsert N (methodKey p.2.method) i (Entry.method p.2) d) := rfl
    rw [hstep, ih]
    rcases hrest : methAt k rest with _ | e
    · by_cases hlen : p.2.gas_data.length = 0
      · simp [methAt, hrest, hlen]
      · by_cases hname : methodKey p.2.method = k
        · subst hname
          simp [methAt, hrest, hlen, dataLookup_upsert_self]
        · have hne : k ≠ methodKey p.2.method := fun hh => hname hh.symm
          simp [methAt, hrest, hlen, hname,
            dataLookup_upsert_other N (methodKey p.2.method) k i _ d hne]
    · have hgoal : methAt k (p :: rest) = some e := by
        simp [methAt, hrest]
      rw [hgoal]
      by_cases hlen : p.2.gas_data.length = 0
      · simp [hlen]
      · by_cases hname : methodKey p.2.method = k
        · subst hname
          simp [hlen, dataLookup_upsert_self, List.set_set]
        · have hne : k ≠ methodKey p.2.method := fun hh => hname hh.symm
          simp [hlen, dataLookup_upsert_other N (methodKey p.2.method) k i _ d hne]

theorem insertFile_lookup (N i : Nat) (r : GasReport) (d : AlignedData) (k : String) :
    dataLookup k (insertFile N i r d) =
      slotWrite N i (fileEntryAt k r) (dataLookup k d) := by
  rw [insertFile, insertMethods_lookup]
  rcases hm : methAt k r.info.methods with _ | e
  · rw [insertDeployments_lookup]
    rcases hd : deplAt k r.info.deployments with _ | e
    · simp [fileEntryAt, hm, hd, slotWrite]
    · simp [fileEntryAt, hm, hd, slotWrite]
  · have hf : fileEntryAt k r = some e := by simp [fileEntryAt, hm]
    rw [hf, insertDeployments_lookup]
    rcases hd : deplAt k r.info.deployments with _ | e'
    · rfl
    · simp [slotWrite, List.set_set]

theorem lookAfter_cons (N i : Nat) (o : Option Entry) (os : List (Option Entry))
    (prev : Option (List (Option Entry))) :
    lookAfter N i (o :: os) prev = lookAfter N (i + 1) os (slotWrite N i o prev) := by
  rcases o with _ | e <;> rcases prev with _ | v <;>
    simp [lookAfter, slotWrite, overwriteFrom]

theorem buildAux_lookup (N : Nat) (rs : List GasReport) :
    ∀ (i : Nat) (d : AlignedData) (k : String),
      dataLookup k (buildAux N i rs d) =
        lookAfter N i (rs.map (fileEntryAt k)) (dataLookup k d) := by
  induction rs with
  | nil =>
    intro i d k
    rcases h : dataLookup k d with _ | v <;> simp [buildAux, h, lookAfter, overwriteFrom]
  | cons r rest ih =>
    intro i d k
    have hstep : buildAux N i (r :: rest) d = buildAux N (i + 1) rest (insertFile N i r d) := rfl
    rw [hstep, ih, insertFile_lookup, List.map_cons, lookAfter_cons]

theorem list_set_append (w : List (Option Entry)) (a b : Option Entry)
    (t : List (Option Entry)) :
    (w ++ a :: t).set w.length b = w ++ b :: t := by
  induction w with
  | nil => rfl
  | cons x xs ih => simp [List.set, ih]

theorem overwriteFrom_append (os : List (Option Entry)) :
    ∀ (w : List (Option Entry)),
      overwriteFrom w.length os (w ++ List.replicate os.length (none : Option Entry)) =
        w ++ os := by
  induction os with
  | nil => intro w; simp [overwriteFrom]
  | cons o rest ih =>
    intro w
    rcases o with _ | e
    · have h1 : w ++ List.replicate (rest.length + 1) (none : Option Entry) =
          (w ++ [none]) ++ List.replicate rest.length none := by
        simp [List.replicate_succ]
      have h2 : w.length + 1 = (w ++ [(none : Option Entry)]).length := by simp
      calc overwriteFrom w.length (none :: rest)
            (w ++ List.replicate (rest.length + 1) (none : Option Entry))
          = overwriteFrom (w.length + 1) rest
              ((w ++ [none]) ++ List.replicate rest.length none) := by
            rw [overwriteFrom, h1]
        _ = (w ++ [none]) ++ rest := by rw [h2, ih]
        _ = w ++ none :: rest := by simp
    · have h1 : (w ++ List.replicate (rest.length + 1) (none : Option Entry)).set
          w.length (some e) = (w ++ [some e]) ++ List.replicate rest.length none := by
        rw [List.replicate_succ, list_set_append]
        simp
      have h2 : w.length + 1 = (w ++ [(some e : Option Entry)]).length := by simp
      calc overwriteFrom w.length (some e :: rest)
            (w ++ List.replicate (rest.length + 1) (none : Option Entry))
          = overwriteFrom (w.length + 1) rest
              ((w ++ [some e]) ++ List.replicate rest.length none) := by
            rw [overwriteFrom, h1]
        _ = (w ++ [some e]) ++ rest := by rw [h2, ih]
        _ = w ++ some e :: rest := by simp

/-- The central characterization of the aligner: the aggregation map built
from `rs` holds key `k` exactly when some file contributes an entry at `k`,
and then column `i` holds precisely what file `i` contributes. -/
theorem buildData_lookup (rs : List GasReport) (k : String) :
    dataLookup k (buildData rs) =
      if (rs.map (fileEntryAt k)).all (fun o => o.isNone) then none
      else some (rs.map (fileEntryAt k)) := by
  rw [buildData, buildAux_lookup]
  have h0 : dataLookup k ([] : AlignedData) = none := rfl
  rw [h0]
  by_cases hall : (rs.map (fileEntryAt k)).all (fun o => o.isNone)
  · simp [lookAfter, hall]
  · have hlen : rs.length = (rs.map (fileEntryAt k)).length := (List.length_map _ _).symm
    have hov := overwriteFrom_append (rs.map (fileEntryAt k)) []
    simp only [List.length_nil, List.nil_append] at hov
    have hL : lookAfter rs.length 0 (rs.map (fileEntryAt k)) none =
        if (rs.map (fileEntryAt k)).all (fun o => o.isNone) then none
        else some (overwriteFrom 0 (rs.map (fileEntryAt k))
          (List.replicate rs.length none)) := rfl
    rw [hL, if_neg hall, if_neg hall, hlen, hov]

/-! ### Keys of the aggregation map -/

theorem keysOf_upsert (N : Nat) (k : String) (i : Nat) (e : Entry) (d : AlignedData) :
    keysOf (upsert N k i e d) =
      if k ∈ keysOf d then keysOf d else keysOf d ++ [k] := by
  induction d with
  | nil => simp [upsert, keysOf]
  | cons p rest ih =>
    obtain ⟨k', v⟩ := p
    by_cases h : k' = k
    · subst h; simp [upsert, keysOf]
    · have hne : ¬ k = k' := fun hh => h hh.symm
      have hup : upsert N k i e ((k', v) :: rest) = (k', v) :: upsert N k i e rest := by
        simp [upsert, h]
      rw [hup]
      show k' :: keysOf (upsert N k i e rest) = _
      rw [ih]
      have hmc : (k ∈ keysOf ((k', v) :: rest)) ↔ (k ∈ keysOf rest) := by
        simp [keysOf, hne]
      by_cases hmem : k ∈ keysOf rest
      · rw [if_pos hmem, if_pos (hmc.mpr hmem)]
        rfl
      · rw [if_neg hmem, if_neg (fun hh => hmem (hmc.mp hh))]
        rfl

theorem keysNodup_upsert (N : Nat) (k : String) (i : Nat) (e : Entry) (d : AlignedData)
    (h : (keysOf d).Nodup) : (keysOf (upsert N k i e d)).Nodup := by
  rw [keysOf_upsert]
  by_cases hmem : k ∈ keysOf d
  · rwa [if_pos hmem]
  · rw [if_neg hmem]
    exact (List.perm_append_singleton k (keysOf d)).nodup_iff.mpr (h.cons hmem)

theorem keysNodup_insertDeployments (N i : Nat) (ds : List RawDeployment) :
    ∀ (d : AlignedData), (keysOf d).Nodup → (keysOf (insertDeployments N i ds d)).Nodup := by
  induction ds with
  | nil => intro d h; exact h
  | cons depl rest ih =>
    intro d h
    have hstep : insertDeployments N i (depl :: rest) d =
        insertDeployments N i rest
          (if depl.gas_data.length = 0 then d
           else upsert N depl.name i (Entry.deployment depl) d) := rfl
    rw [hstep]
    by_cases hlen : depl.gas_data.length = 0
    · rw [if_pos hlen]; exact ih d h
    · rw [if_neg hlen]; exact ih _ (keysNodup_upsert _ _ _ _ _ h)

theorem keysNodup_insertMethods (N i : Nat) (ms : List (String × RawMethod)) :
    ∀ (d : AlignedData), (keysOf d).Nodup → (keysOf (insertMethods N i ms d)).Nodup := by
  induction ms with
  | nil => intro d h; exact h
  | cons p rest ih =>
    intro d h
    have hstep : insertMethods N i (p :: rest) d =
        insertMethods N i rest
          (if p.2.gas_data.length = 0 then d
           else upsert N (methodKey p.2.method) i (Entry.method p.2) d) := rfl
    rw [hstep]
    by_cases hlen : p.2.gas_data.length = 0
    · rw [if_pos hlen]; exact ih d h
    · rw [if_neg hlen]; exact ih _ (keysNodup_upsert _ _ _ _ _ h)

theorem keysNodup_buildAux (N : Nat) (rs : List GasReport) :
    ∀ (i : Nat) (d : AlignedData), (keysOf d).Nodup → (keysOf (buildAux N i rs d)).Nodup := by
  induction rs with
  | nil => intro i d h; exact h
  | cons r rest ih =>
    intro i d h
    exact ih (i + 1) _ (keysNodup_insertMethods _ _ _ _ (keysNodup_insertDeployments _ _ _ _ h))

theorem keysNodup_buildData (rs : List GasReport) : (keysOf (buildData rs)).Nodup :=
  keysNodup_buildAux rs.length rs 0 [] List.nodup_nil

/-! ### Lookup and membership -/

theorem dataLookup_eq_none_iff (k : String) (d : AlignedData) :
    dataLookup k d = none ↔ k ∉ keysOf d := by
  induction d with
  | nil => simp [dataLookup, keysOf]
  | cons p rest ih =>
    obtain ⟨k', v⟩ := p
    by_cases h : k' = k
    · subst h; simp [dataLookup, keysOf]
    · have hne : ¬ k = k' := fun hh => h hh.symm
      simp [dataLookup, keysOf, h, hne, ih]

theorem mem_of_dataLookup (k : String) (v : List (Option Entry)) (d : AlignedData)
    (h : dataLookup k d = some v) : (k, v) ∈ d := by
  induction d with
  | nil => simp [dataLookup] at h
  | cons p rest ih =>
    obtain ⟨k', v'⟩ := p
    by_cases hk : k' = k
    · subst hk
      simp [dataLookup] at h
      subst h
      exact List.mem_cons_self _ _
    · simp [dataLookup, hk] at h
      exact List.mem_cons_of_mem _ (ih h)

theorem dataLookup_of_mem (k : String) (v : List (Option Entry)) (d : AlignedData)
    (hmem : (k, v) ∈ d) (hnd : (keysOf d).Nodup) : dataLookup k d = some v := by
  induction d with
  | nil => simp at hmem
  | cons p rest ih =>
    obtain ⟨k', v'⟩ := p
    have hnd' := List.nodup_cons.mp hnd
    rcases List.mem_cons.mp hmem with heq | htail
    · cases heq
      simp [dataLookup]
    · by_cases hk : k' = k
      · exfalso
        apply hnd'.1
        have hkm : k ∈ keysOf rest := List.mem_map.mpr ⟨(k, v), htail, rfl⟩
        rw [hk]
        exact hkm
      · simp only [dataLookup, if_neg hk]
        exact ih htail hnd'.2

/-! ### Provenance of aligned entries -/

theorem deplAt_some (k : String) (ds : List RawDeployment) (e : Entry)
    (h : deplAt k ds = some e) :
    ∃ depl, e = Entry.deployment depl ∧ depl ∈ ds ∧ depl.name = k ∧ depl.gas_data ≠ [] := by
  induction ds with
  | nil => simp [deplAt] at h
  | cons depl rest ih =>
    rw [deplAt] at h
    rcases hrest : deplAt k rest with _ | e'
    · rw [hrest] at h
      by_cases hc : depl.gas_data.length ≠ 0 ∧ depl.name = k
      · rw [if_pos hc] at h
        cases h
        exact ⟨depl, rfl, List.mem_cons_self _ _, hc.2,
          fun hnil => hc.1 (by rw [hnil]; rfl)⟩
      · rw [if_neg hc] at h; cases h
    · rw [hrest] at h
      cases h
      obtain ⟨d', h1, h2, h3, h4⟩ := ih hrest
      exact ⟨d', h1, List.mem_cons_of_mem _ h2, h3, h4⟩

theorem methAt_some (k : String) (ms : List (String × RawMethod)) (e : Entry)
    (h : methAt k ms = some e) :
    ∃ p, p ∈ ms ∧ e = Entry.method p.2 ∧ methodKey p.2.method = k ∧ p.2.gas_data ≠ [] := by
  induction ms with
  | nil => simp [methAt] at h
  | cons p rest ih =>
    rw [methAt] at h
    rcases hrest : methAt k rest with _ | e'
    · rw [hrest] at h
      by_cases hc : p.2.gas_data.length ≠ 0 ∧ methodKey p.2.method = k
      · rw [if_pos hc] at h
        cases h
        exact ⟨p, List.mem_cons_self _ _, rfl, hc.2,
          fun hnil => hc.1 (by rw [hnil]; rfl)⟩
      · rw [if_neg hc] at h; cases h
    · rw [hrest] at h
      cases h
      obtain ⟨p', h1, h2, h3, h4⟩ := ih hrest
      exact ⟨p', List.mem_cons_of_mem _ h1, h2, h3, h4⟩

theorem fileEntryAt_some (k : String) (r : GasReport) (e : Entry)
    (h : fileEntryAt k r = some e) :
    entryKeyOf e = k ∧ e.gas_data ≠ [] ∧
      ((∃ depl ∈ r.info.deployments, e = Entry.deployment depl) ∨
        (∃ p ∈ r.info.methods, e = Entry.method p.2)) := by
  rw [fileEntryAt] at h
  rcases hm : methAt k r.info.methods with _ | e'
  · rw [hm] at h
    obtain ⟨depl, h1, h2, h3, h4⟩ := deplAt_some k _ e h
    exact ⟨by rw [h1]; exact h3, by rw [h1]; exact h4, Or.inl ⟨depl, h2, h1⟩⟩
  · rw [hm] at h
    injection h with h'
    subst h'
    obtain ⟨p, h1, h2, h3, h4⟩ := methAt_some k _ _ hm
    exact ⟨by rw [h2]; exact h3, by rw [h2]; exact h4, Or.inr ⟨p, h1, h2⟩⟩

/-! ### The sort -/

theorem charListLt_iff : ∀ (as bs : List Char), charListLt as bs = true ↔ as < bs := by
  intro as
  induction as with
  | nil =>
    intro bs
    cases bs with
    | nil =>
      constructor
      · intro h; cases h
      · intro h; exact absurd h (List.Lex.not_nil_right _ _)
    | cons b bs =>
      constructor
      · intro _; exact List.Lex.nil
      · intro _; rfl
  | cons a as ih =>
    intro bs
    cases bs with
    | nil =>
      constructor
      · intro h; cases h
      · intro h; exact absurd h (List.Lex.not_nil_right _ _)
    | cons b bs =>
      rw [charListLt]
      by_cases h1 : a < b
      · rw [if_pos h1]
        exact ⟨fun _ => List.Lex.rel h1, fun _ => rfl⟩
      · rw [if_neg h1]
        by_cases h2 : b < a
        · rw [if_pos h2]
          constructor
          · intro h; cases h
          · intro h
            cases h with
            | rel hr => exact absurd hr h1
            | cons hc => exact absurd h2 (lt_irrefl a)
        · rw [if_neg h2]
          have hab : a = b := le_antisymm (le_of_not_lt h2) (le_of_not_lt h1)
          subst hab
          rw [ih bs]
          constructor
          · intro h; exact List.Lex.cons h
          · intro h
            cases h with
            | rel hr => exact absurd hr (lt_irrefl a)
            | cons hc => exact hc

theorem strLeB_iff (a b : String) : strLeB a b = true ↔ a ≤ b := by
  rw [strLeB, Bool.not_eq_true']
  have hiff : charListLt b.data a.data = true ↔ b < a := by
    rw [charListLt_iff, String.lt_iff_toList_lt]
    exact Iff.rfl
  constructor
  · intro h
    refine not_lt.mp ?_
    rw [← hiff]
    simp [h]
  · intro h
    rcases Bool.eq_false_or_eq_true (charListLt b.data a.data) with ht | hf
    · exact absurd (hiff.mp ht) (not_lt.mpr h)
    · exact hf

theorem insertSorted_perm (p : String × List (Option Entry)) (l : AlignedData) :
    (insertSorted p l).Perm (p :: l) := by
  induction l with
  | nil => simp [insertSorted]
  | cons q rest ih =>
    rw [insertSorted]
    by_cases h : strLeB p.1 q.1 = true
    · rw [if_pos h]
    · rw [if_neg h]
      exact (ih.cons q).trans (List.Perm.swap p q rest)

theorem sortData_perm (d : AlignedData) : (sortData d).Perm d := by
  induction d with
  | nil => simp [sortData]
  | cons p rest ih =>
    have hstep : sortData (p :: rest) = insertSorted p (sortData rest) := rfl
    rw [hstep]
    exact (insertSorted_perm p (sortData rest)).trans (ih.cons p)

theorem insertSorted_sorted (p : String × List (Option Entry)) (l : AlignedData)
    (hs : List.Pairwise (fun a b => a.1 ≤ b.1) l) :
    List.Pairwise (fun a b => a.1 ≤ b.1) (insertSorted p l) := by
  induction l with
  | nil => simp [insertSorted]
  | cons q rest ih =>
    obtain ⟨hq, hrest⟩ := List.pairwise_cons.mp hs
    rw [insertSorted]
    by_cases h : strLeB p.1 q.1 = true
    · rw [if_pos h]
      have hle := (strLeB_iff p.1 q.1).mp h
      exact List.pairwise_cons.mpr
        ⟨fun b hb => by
          rcases List.mem_cons.mp hb with rfl | hbr
          · exact hle
          · exact le_trans hle (hq b hbr), hs⟩
    · rw [if_neg h]
      have hqp : q.1 ≤ p.1 :=
        le_of_not_le (fun hle => h ((strLeB_iff p.1 q.1).mpr hle))
      exact List.pairwise_cons.mpr
        ⟨fun b hb => by
          rcases List.mem_cons.mp ((insertSorted_perm p rest).mem_iff.mp hb) with rfl | hbr
          · exact hqp
          · exact hq b hbr, ih hrest⟩

theorem sortData_sorted (d : AlignedData) :
    List.Pairwise (fun a b => a.1 ≤ b.1) (sortData d) := by
  induction d with
  | nil => simp [sortData]
  | cons p rest ih => exact insertSorted_sorted p (sortData rest) ih

theorem sortData_sorted_lt (d : AlignedData) (h : (keysOf d).Nodup) :
    List.Pairwise (fun a b => a.1 < b.1) (sortData d) := by
  have hs := sortData_sorted d
  have hnd : (keysOf (sortData d)).Nodup := by
    have hperm : (keysOf (sortData d)).Perm (keysOf d) := (sortData_perm d).map Prod.fst
    exact hperm.nodup_iff.mpr h
  have hne : List.Pairwise (fun a b : String × List (Option Entry) => a.1 ≠ b.1)
      (sortData d) := List.pairwise_map.mp hnd
  exact (hs.and hne).imp fun hab => lt_of_le_of_ne hab.1 hab.2

/-! ### Canonicalization: lookup-equal maps render identically -/

theorem dataLookup_append_middle (k' k : String) (v : List (Option Entry))
    (l₁ l₂ : AlignedData) (h : k' ≠ k) :
    dataLookup k' (l₁ ++ (k, v) :: l₂) = dataLookup k' (l₁ ++ l₂) := by
  induction l₁ with
  | nil =>
    have hne : ¬ k = k' := fun hh => h hh.symm
    simp [dataLookup, hne]
  | cons q rest ih =>
    obtain ⟨k'', v''⟩ := q
    by_cases hk : k'' = k'
    · simp [dataLookup, hk]
    · simp [dataLookup, hk, ih]

theorem perm_of_lookup_eq :
    ∀ (d d' : AlignedData), (keysOf d).Nodup → (keysOf d').Nodup →
      (∀ k, dataLookup k d = dataLookup k d') → d.Perm d' := by
  intro d
  induction d with
  | nil =>
    intro d' _ _ hl
    cases d' with
    | nil => exact List.Perm.refl []
    | cons p rest =>
      exfalso
      have h1 := hl p.1
      have h2 : dataLookup p.1 ((p.1, p.2) :: rest) = some p.2 := by simp [dataLookup]
      rw [show dataLookup p.1 ([] : AlignedData) = none from rfl] at h1
      rw [← h1] at h2
      simp at h2
  | cons p rest ih =>
    intro d' hnd hnd' hl
    obtain ⟨k, v⟩ := p
    have hv : dataLookup k d' = some v := by
      rw [← hl k]; simp [dataLookup]
    have hmem := mem_of_dataLookup _ _ _ hv
    obtain ⟨l₁, l₂, rfl⟩ := List.append_of_mem hmem
    have hkeys' : keysOf (l₁ ++ (k, v) :: l₂) = keysOf l₁ ++ k :: keysOf l₂ := by
      simp [keysOf]
    have hmid : (keysOf l₁ ++ k :: keysOf l₂).Nodup := hkeys' ▸ hnd'
    have hmid' : (k :: (keysOf l₁ ++ keysOf l₂)).Nodup := List.nodup_middle.mp hmid
    have hnotin : k ∉ keysOf l₁ ++ keysOf l₂ := (List.nodup_cons.mp hmid').1
    have hrest_nd : (keysOf rest).Nodup := (List.nodup_cons.mp hnd).2
    have hknotin : k ∉ keysOf rest := (List.nodup_cons.mp hnd).1
    have hcat_nd : (keysOf (l₁ ++ l₂)).Nodup := by
      have : keysOf (l₁ ++ l₂) = keysOf l₁ ++ keysOf l₂ := by simp [keysOf]
      rw [this]
      exact (List.nodup_cons.mp hmid').2
    have hl' : ∀ k', dataLookup k' rest = dataLookup k' (l₁ ++ l₂) := by
      intro k'
      by_cases hk : k' = k
      · subst hk
        have e1 : dataLookup k' rest = none :=
          (dataLookup_eq_none_iff k' rest).mpr hknotin
        have e2 : dataLookup k' (l₁ ++ l₂) = none := by
          refine (dataLookup_eq_none_iff k' (l₁ ++ l₂)).mpr ?_
          have : keysOf (l₁ ++ l₂) = keysOf l₁ ++ keysOf l₂ := by simp [keysOf]
          rw [this]
          exact hnotin
        rw [e1, e2]
      · have e1 : dataLookup k' ((k, v) :: rest) = dataLookup k' rest := by
          have hne : ¬ k = k' := fun hh => hk hh.symm
          simp [dataLookup, hne]
        have e2 := dataLookup_append_middle k' k v l₁ l₂ hk
        rw [← e1, hl k', e2]
    have hperm := ih (l₁ ++ l₂) hrest_nd hcat_nd hl'
    exact (hperm.cons (k, v)).trans List.perm_middle.symm

theorem sortData_eq_of_perm (d d' : AlignedData) (h : d.Perm d')
    (hd : (keysOf d).Nodup) : sortData d = sortData d' := by
  have hd' : (keysOf d').Nodup := (h.map Prod.fst).nodup_iff.mp hd
  have s1 := sortData_sorted_lt d hd
  have s2 := sortData_sorted_lt d' hd'
  have hp : (sortData d).Perm (sortData d') :=
    (sortData_perm d).trans (h.trans (sortData_perm d').symm)
  haveI : IsAntisymm (String × List (Option Entry)) (fun a b => a.1 < b.1) :=
    ⟨fun a b h1 h2 => absurd (lt_trans h1 h2) (lt_irrefl _)⟩
  exact List.eq_of_perm_of_sorted hp s1 s2

/-! ### Permutation invariance of a file's contribution -/

theorem methAt_eq_filter (k : String) :
    ∀ (ms : List (String × RawMethod)),
      methAt k ms =
        ((ms.filter (fun p =>
            (methodKey p.2.method == k) && !(p.2.gas_data.length == 0))).getLast?).map
          (fun p => Entry.method p.2) := by
  have hpred : ∀ q : String × RawMethod,
      ((methodKey q.2.method == k) && !(q.2.gas_data.length == 0)) = true ↔
        (q.2.gas_data.length ≠ 0 ∧ methodKey q.2.method = k) := by
    intro q
    simp only [Bool.and_eq_true, beq_iff_eq, Bool.not_eq_true', beq_eq_false_iff_ne]
    tauto
  intro ms
  induction ms with
  | nil => rfl
  | cons p rest ih =>
    rw [methAt]
    rcases hrest : methAt k rest with _ | e
    · rw [hrest] at ih
      have hfil : rest.filter (fun p =>
          (methodKey p.2.method == k) && !(p.2.gas_data.length == 0)) = [] := by
        rcases hf : rest.filter
            (fun p => (methodKey p.2.method == k) && !(p.2.gas_data.length == 0))
          with _ | ⟨q, t⟩
        · exact hf
        · exfalso
          rw [hf] at ih
          have hsome : (q :: t).getLast?.isSome := by
            rw [List.getLast?_isSome]
            simp
          rcases Option.isSome_iff_exists.mp hsome with ⟨x, hx⟩
          rw [hx] at ih
          simp at ih
      rw [List.filter_cons, hfil]
      by_cases hc : p.2.gas_data.length ≠ 0 ∧ methodKey p.2.method = k
      · rw [if_pos hc]
        have hb := (hpred p).mpr hc
        simp [hb]
      · rw [if_neg hc]
        have hb : ((methodKey p.2.method == k) && !(p.2.gas_data.length == 0)) = false := by
          rcases Bool.eq_false_or_eq_true
              ((methodKey p.2.method == k) && !(p.2.gas_data.length == 0)) with hb | hb
          · exact absurd ((hpred p).mp hb) hc
          · exact hb
        simp [hb]
    · rw [hrest] at ih
      have hne : rest.filter
          (fun p => (methodKey p.2.method == k) && !(p.2.gas_data.length == 0)) ≠ [] := by
        intro hnil
        rw [hnil] at ih
        simp at ih
      rw [List.filter_cons]
      rcases hf : rest.filter
          (fun p => (methodKey p.2.method == k) && !(p.2.gas_data.length == 0))
        with _ | ⟨q, t⟩
      · exact absurd hf hne
      · rw [hf] at ih
        by_cases hb : ((methodKey p.2.method == k) && !(p.2.gas_data.length == 0)) = true
        · rw [if_pos hb, hf, List.getLast?_cons_cons]
          exact ih
        · rw [if_neg hb, hf]
          exact ih

theorem methAt_perm (k : String) (ms ms' : List (String × RawMethod))
    (h : ms.Perm ms')
    (hn : ((ms.filter (fun p => !(p.2.gas_data.length == 0))).map
      (fun p => methodKey p.2.method)).Nodup) :
    methAt k ms = methAt k ms' := by
  rw [methAt_eq_filter, methAt_eq_filter]
  have hff : ms.filter (fun p =>
      (methodKey p.2.method == k) && !(p.2.gas_data.length == 0)) =
      (ms.filter (fun p => !(p.2.gas_data.length == 0))).filter
        (fun p => methodKey p.2.method == k) := by
    rw [List.filter_filter]
  have hlen : (ms.filter (fun p =>
      (methodKey p.2.method == k) && !(p.2.gas_data.length == 0))).length ≤ 1 := by
    rw [hff]
    have hsub : ((ms.filter (fun p => !(p.2.gas_data.length == 0))).filter
        (fun p => methodKey p.2.method == k)).Sublist
          (ms.filter (fun p => !(p.2.gas_data.length == 0))) :=
      List.filter_sublist _
    have hnd2 : (((ms.filter (fun p => !(p.2.gas_data.length == 0))).filter
        (fun p => methodKey p.2.method == k)).map
          (fun p => methodKey p.2.method)).Nodup :=
      hn.sublist (hsub.map _)
    have hall : ∀ y ∈ ((ms.filter (fun p => !(p.2.gas_data.length == 0))).filter
        (fun p => methodKey p.2.method == k)).map
          (fun p => methodKey p.2.method), y = k := by
      intro y hy
      rcases List.mem_map.mp hy with ⟨x, hx, rfl⟩
      have := (List.mem_filter.mp hx).2
      exact beq_iff_eq.mp this
    have hrep := List.eq_replicate_of_mem hall
    rw [hrep] at hnd2
    have hle := List.nodup_replicate.mp hnd2
    simpa using hle
  have hpf := h.filter
    (fun p => (methodKey p.2.method == k) && !(p.2.gas_data.length == 0))
  have heq : ms.filter (fun p =>
      (methodKey p.2.method == k) && !(p.2.gas_data.length == 0)) =
      ms'.filter (fun p =>
        (methodKey p.2.method == k) && !(p.2.gas_data.length == 0)) := by
    rcases hl : ms.filter (fun p =>
        (methodKey p.2.method == k) && !(p.2.gas_data.length == 0)) with _ | ⟨q, t⟩
    · rw [hl] at hpf
      rw [hl]
      exact (hpf.symm.eq_nil).symm
    · rw [hl] at hpf hlen
      rw [hl]
      cases t with
      | nil => exact (List.perm_singleton.mp hpf.symm).symm
      | cons x xs => simp at hlen
  rw [heq]

theorem fileEntryAt_perm (k : String) (r r' : GasReport)
    (hd : r.info.deployments = r'.info.deployments)
    (hm : r.info.methods.Perm r'.info.methods)
    (hn : methodsNodupOk r) :
    fileEntryAt k r = fileEntryAt k r' := by
  rw [fileEntryAt, fileEntryAt, hd, methAt_perm k r.info.methods r'.info.methods hm hn]

/-! ### The column loop -/

theorem renderColsAux_length (cols : List (Option Entry)) :
    ∀ (first : Option Int) (i : Nat), (renderColsAux first i cols).length = cols.length := by
  induction cols with
  | nil => intro first i; rfl
  | cons c rest ih =>
    intro first i
    rcases c with _ | e
    · simp [renderColsAux, ih]
    · by_cases h : e.has_gas_data
      · simp [renderColsAux, h, ih]
      · simp [renderColsAux, h, ih]

theorem renderColsAux_tail (cols : List (Option Entry)) :
    ∀ (first : Option Int) (i : Nat), i ≠ 0 →
      renderColsAux first i cols = cols.map (colCell first) := by
  induction cols with
  | nil => intro first i _; rfl
  | cons c rest ih =>
    intro first i hi
    rcases c with _ | e
    · simp [renderColsAux, colCell, ih first (i + 1) (Nat.succ_ne_zero i)]
    · by_cases h : e.has_gas_data
      · simp [renderColsAux, colCell, h, if_neg hi, ih first (i + 1) (Nat.succ_ne_zero i)]
      · simp [renderColsAux, colCell, h, ih first (i + 1) (Nat.succ_ne_zero i)]

/-! ### Cell formatting -/

theorem absoluteCell_tenths (avg t : Int) (h : round (10 * blockPercent avg) = t) :
    absoluteCell avg = toString avg ++ " (" ++ padLeft 4 (fmt1Tenths t) ++ "%)" := by
  rw [absoluteCell, fmt1, h]

theorem deltaCell_parts (avg first t : Int) (c : Nat)
    (h0 : first ≠ 0) (hnz : ¬ (avg = first ∧ first < 0))
    (h1 : round (10 * deltaPercent avg first) = t)
    (h2 : colorCode (deltaPercent avg first) = c) :
    deltaCell avg first =
      "\x1b[" ++ toString c ++ "m" ++ fmtSignedInt (avg - first)
        ++ " (" ++ padLeft 5 (fmtSigned1Tenths t) ++ "%)" ++ "\x1b[0m" := by
  rw [deltaCell]
  show "\x1b[" ++ toString (colorCodeF (deltaPercentF avg first)) ++ "m"
      ++ fmtSignedInt (avg - first)
      ++ " (" ++ padLeft 5 (fmtF64Pct (deltaPercentF avg first)) ++ "%)" ++ "\x1b[0m" = _
  rw [deltaPercentF, if_neg h0, if_neg hnz]
  show "\x1b[" ++ toString (colorCode (deltaPercent avg first)) ++ "m"
      ++ fmtSignedInt (avg - first)
      ++ " (" ++ padLeft 5 (fmtSigned1 (deltaPercent avg first)) ++ "%)" ++ "\x1b[0m" = _
  rw [h2, fmtSigned1, h1]

theorem renderColsAux_cons_some (first : Option Int) (i : Nat) (e : Entry)
    (rest : List (Option Entry)) :
    renderColsAux first i (some e :: rest) =
      if e.has_gas_data
      then renderCell first e.avg_gas ::
        renderColsAux (if i = 0 then some e.avg_gas else first) (i + 1) rest
      else "" :: renderColsAux first (i + 1) rest := rfl

theorem renderColsAux_cons_none (first : Option Int) (i : Nat)
    (rest : List (Option Entry)) :
    renderColsAux first i (none :: rest) = "" :: renderColsAux first (i + 1) rest := rfl

/-! ### The claims -/

/-- C1: the baseline of a row is taken from column index 0 only.  If column 0
holds an entry with data, the head cell renders in absolute mode and the
entry's average becomes the baseline for every later column; if column 0 is
absent or empty-sampled, every later column is rendered with no baseline
(`colCell none`), and such a cell is always empty or in absolute mode
(value plus percent-of-block-limit) — never in delta mode. -/
theorem c1_baseline_from_column_zero_only :
    (∀ (e : Entry) (rest : List (Option Entry)),
        renderColsAux none 0 (some e :: rest) =
          (if e.has_gas_data then absoluteCell e.avg_gas else "") ::
            rest.map (colCell (if e.has_gas_data then some e.avg_gas else none)))
    ∧ (∀ rest : List (Option Entry),
        renderColsAux none 0 (none :: rest) = "" :: rest.map (colCell none))
    ∧ (∀ (f : Int) (e : Entry),
        colCell (some f) (some e) = if e.has_gas_data then deltaCell e.avg_gas f else "")
    ∧ (∀ c : Option Entry,
        colCell none c = "" ∨ ∃ e, c = some e ∧ colCell none c = absoluteCell e.avg_gas) := by
  refine ⟨?_, ?_, ?_, ?_⟩
  · intro e rest
    by_cases h : e.has_gas_data
    · rw [renderColsAux_cons_some, if_pos h, if_pos h, if_pos h,
        if_pos (rfl : (0 : Nat) = 0), renderColsAux_tail rest _ (0 + 1) (Nat.succ_ne_zero 0)]
      rfl
    · rw [renderColsAux_cons_some, if_neg h, if_neg h, if_neg h,
        renderColsAux_tail rest _ (0 + 1) (Nat.succ_ne_zero 0)]
  · intro rest
    rw [renderColsAux_cons_none, renderColsAux_tail rest _ (0 + 1) (Nat.succ_ne_zero 0)]
  · intro f e
    rfl
  · intro c
    rcases c with _ | e
    · exact Or.inl rfl
    · by_cases h : e.has_gas_data
      · exact Or.inr ⟨e, rfl, by simp [colCell, h, renderCell]⟩
      · exact Or.inl (by simp [colCell, h])

/-- C2: the average of an entry is the integer sum of its samples divided by
their count with truncating division; for non-negative samples this is the
floor of the exact rational mean, and the samples `[10, 11]` give `10`, not
`10.5`. -/
theorem c2_truncating_average :
    (∀ e : Entry, e.gas_data ≠ [] → (∀ x ∈ e.gas_data, 0 ≤ x) →
        e.avg_gas = ⌊(e.gas_data.sum : ℚ) / (e.gas_data.length : ℚ)⌋)
    ∧ (∀ e : Entry, e.avg_gas = Int.tdiv e.gas_data.sum (e.gas_data.length : Int))
    ∧ (Entry.deployment ⟨"D", [10, 11]⟩).avg_gas = 10
    ∧ ((Entry.deployment ⟨"D", [10, 11]⟩).avg_gas : ℚ) ≠ 21/2 := by
  refine ⟨?_, fun e => rfl, by decide, ?_⟩
  · intro e _ hpos
    have hsum : 0 ≤ e.gas_data.sum := List.sum_nonneg hpos
    have hlen : (0 : Int) ≤ (e.gas_data.length : Int) := Int.natCast_nonneg _
    rw [Entry.avg_gas, Int.tdiv_eq_ediv hsum hlen]
    rw [Rat.floor_intCast_div_natCast e.gas_data.sum e.gas_data.length]
  · have h : (Entry.deployment ⟨"D", [10, 11]⟩).avg_gas = 10 := by decide
    rw [h]
    norm_num

/-- C2 witness: the general floor characterization applied to the concrete
entry with samples `[10, 11]`. -/
theorem c2_truncating_average_witness :
    (Entry.deployment ⟨"D", [10, 11]⟩).avg_gas =
      ⌊((Entry.deployment ⟨"D", [10, 11]⟩).gas_data.sum : ℚ) /
        ((Entry.deployment ⟨"D", [10, 11]⟩).gas_data.length : ℚ)⌋ :=
  c2_truncating_average.1 (Entry.deployment ⟨"D", [10, 11]⟩) (by decide) (by decide)

/-- C4: a delta cell is classified by the exact percentage
`100 * (average - baseline) / baseline`: strictly above `1/10` of a percent
renders red (code 91), strictly below `-1/10` renders green (code 92),
otherwise neutral (code 0); baseline 100 with average 111 renders
`+11 (+11.0%)` in red, average 90 renders `-10 (-10.0%)` in green, and a
`+0.05%` change stays neutral. -/
theorem c4_color_classification :
    (∀ a f : Int,
        (colorCode (deltaPercent a f) = 91 ↔ 100 * ((a : ℚ) - (f : ℚ)) / (f : ℚ) > 1/10)
      ∧ (colorCode (deltaPercent a f) = 92 ↔ 100 * ((a : ℚ) - (f : ℚ)) / (f : ℚ) < -(1/10))
      ∧ (colorCode (deltaPercent a f) = 0 ↔
          (¬ 100 * ((a : ℚ) - (f : ℚ)) / (f : ℚ) > 1/10 ∧
            ¬ 100 * ((a : ℚ) - (f : ℚ)) / (f : ℚ) < -(1/10))))
    ∧ deltaCell 111 100 = "\x1b[91m+11 (+11.0%)\x1b[0m"
    ∧ deltaCell 90 100 = "\x1b[92m-10 (-10.0%)\x1b[0m"
    ∧ deltaPercent 10005 10000 = 1/20
    ∧ colorCode (deltaPercent 10005 10000) = 0 := by
  have hm : MARGIN = 1/10 := rfl
  refine ⟨?_, ?_, ?_, ?_, ?_⟩
  · intro a f
    have hd : deltaPercent a f = 100 * ((a : ℚ) - (f : ℚ)) / (f : ℚ) := rfl
    rw [colorCode, hm, ← hd]
    by_cases h1 : deltaPercent a f > 1/10
    · rw [if_pos h1]
      refine ⟨⟨fun _ => h1, fun _ => rfl⟩,
        ⟨fun h => absurd h (by norm_num), fun h2 => absurd h2 (by linarith)⟩,
        ⟨fun h => absurd h (by norm_num), fun hh => absurd h1 hh.1⟩⟩
    · rw [if_neg h1]
      by_cases h2 : deltaPercent a f < -(1/10)
      · rw [if_pos h2]
        refine ⟨⟨fun h => absurd h (by norm_num), fun hh => absurd hh h1⟩,
          ⟨fun _ => h2, fun _ => rfl⟩,
          ⟨fun h => absurd h (by norm_num), fun hh => absurd h2 hh.2⟩⟩
      · rw [if_neg h2]
        refine ⟨⟨fun h => absurd h (by norm_num), fun hh => absurd hh h1⟩,
          ⟨fun h => absurd h (by norm_num), fun hh => absurd hh h2⟩,
          ⟨fun _ => ⟨h1, h2⟩, fun _ => rfl⟩⟩
  · have hp : deltaPercent 111 100 = 11 := by norm_num [deltaPercent]
    have hr : round (10 * deltaPercent 111 100) = 110 := by
      rw [hp]; norm_num [round_eq]
    have hc : colorCode (deltaPercent 111 100) = 91 := by
      rw [hp, colorCode, if_pos]
      norm_num [MARGIN]
    rw [deltaCell_parts 111 100 110 91 (by decide) (by decide) hr hc]
    decide
  · have hp : deltaPercent 90 100 = -10 := by norm_num [deltaPercent]
    have hr : round (10 * deltaPercent 90 100) = -100 := by
      rw [hp]; norm_num [round_eq]
    have hc : colorCode (deltaPercent 90 100) = 92 := by
      rw [hp, colorCode, if_neg, if_pos]
      · norm_num [MARGIN]
      · norm_num [MARGIN]
    rw [deltaCell_parts 90 100 (-100) 92 (by decide) (by decide) hr hc]
    decide
  · norm_num [deltaPercent]
  · have hp : deltaPercent 10005 10000 = 1/20 := by norm_num [deltaPercent]
    rw [hp, colorCode, if_neg, if_neg]
    · norm_num [MARGIN]
    · norm_num [MARGIN]

/-- Helper: a successful lookup into the built map returns exactly the
per-file contribution vector, and at least one slot is present. -/
theorem buildData_lookup_some (rs : List GasReport) (k : String)
    (cols : List (Option Entry)) (h : dataLookup k (buildData rs) = some cols) :
    cols = rs.map (fileEntryAt k) ∧ ∃ e, some e ∈ cols := by
  rw [buildData_lookup] at h
  by_cases hall : (rs.map (fileEntryAt k)).all (fun o => o.isNone)
  · rw [if_pos hall] at h
    exact absurd h (by simp)
  · rw [if_neg hall] at h
    injection h with h
    refine ⟨h.symm, ?_⟩
    subst h
    have hne := List.all_eq_true.not.mp hall
    push_neg at hne
    obtain ⟨o, ho, hno⟩ := hne
    rcases o with _ | e
    · exact absurd rfl hno
    · exact ⟨e, ho⟩

/-- Helper: every entry stored in a slot of the built map has a non-empty
sample list. -/
theorem aligned_entry_nonempty (rs : List GasReport) (k : String)
    (cols : List (Option Entry)) (e : Entry)
    (hlook : dataLookup k (buildData rs) = some cols) (hmem : some e ∈ cols) :
    e.gas_data ≠ [] := by
  obtain ⟨hcols, -⟩ := buildData_lookup_some rs k cols hlook
  rw [hcols] at hmem
  rcases List.mem_map.mp hmem with ⟨r, hr, hfe⟩
  exact (fileEntryAt_some k r e hfe).2.1

/-- C3: an entry with an empty sample list is never inserted by the aligner
(every stored slot has non-empty samples); if every record of every file at
a key has empty samples, the key is absent from the map entirely; a key that
is present has at least one occupied slot; and even at render time an
empty-sampled entry would produce an empty cell, never a value. -/
theorem c3_empty_samples_never_inserted :
    (∀ (rs : List GasReport) (k : String) (cols : List (Option Entry)) (e : Entry),
        dataLookup k (buildData rs) = some cols → some e ∈ cols → e.gas_data ≠ [])
    ∧ (∀ (rs : List GasReport) (k : String),
        (∀ r ∈ rs,
          (∀ depl ∈ r.info.deployments, depl.name = k → depl.gas_data = []) ∧
          (∀ p ∈ r.info.methods, methodKey p.2.method = k → p.2.gas_data = [])) →
        dataLookup k (buildData rs) = none)
    ∧ (∀ (rs : List GasReport) (k : String) (cols : List (Option Entry)),
        dataLookup k (buildData rs) = some cols → ∃ e, some e ∈ cols)
    ∧ (∀ (first : Option Int) (i : Nat) (e : Entry) (rest : List (Option Entry)),
        e.gas_data = [] →
        renderColsAux first i (some e :: rest) = "" :: renderColsAux first (i + 1) rest) := by
  refine ⟨aligned_entry_nonempty, ?_, ?_, ?_⟩
  · intro rs k hall
    rw [buildData_lookup, if_pos]
    rw [List.all_eq_true]
    intro o ho
    rcases List.mem_map.mp ho with ⟨r, hr, rfl⟩
    rcases hfe : fileEntryAt k r with _ | e
    · simp
    · exfalso
      obtain ⟨hkey, hne, hprov⟩ := fileEntryAt_some k r e hfe
      rcases hprov with ⟨depl, hd, rfl⟩ | ⟨p, hp, rfl⟩
      · exact hne ((hall r hr).1 depl hd hkey)
      · exact hne ((hall r hr).2 p hp hkey)
  · intro rs k cols hlook
    exact (buildData_lookup_some rs k cols hlook).2
  · intro first i e rest h
    have hfalse : ¬ e.has_gas_data = true := by
      simp [Entry.has_gas_data, h]
    rw [renderColsAux_cons_some, if_neg hfalse]

/-- C3 witness: the slot stored for key `Token` from `fileTokenA` holds the
deployment with its non-empty samples. -/
theorem c3_empty_samples_never_inserted_witness :
    (Entry.deployment ⟨"Token", [200, 200]⟩).gas_data ≠ [] :=
  c3_empty_samples_never_inserted.1 [fileTokenA] "Token"
    [some (Entry.deployment ⟨"Token", [200, 200]⟩)]
    (Entry.deployment ⟨"Token", [200, 200]⟩) (by decide) (by decide)

/-- C9: the division in `avg_gas` is guarded: every entry the aligner stores
has a positive sample count, and at render time an entry failing the
`has_gas_data` check produces an empty cell without computing any average;
`has_gas_data` is exactly positivity of the sample count. -/
theorem c9_division_by_zero_unreachable :
    (∀ (rs : List GasReport) (k : String) (cols : List (Option Entry)) (e : Entry),
        dataLookup k (buildData rs) = some cols → some e ∈ cols →
          0 < e.gas_data.length)
    ∧ (∀ (first : Option Int) (i : Nat) (e : Entry) (rest : List (Option Entry)),
        e.has_gas_data = false →
        renderColsAux first i (some e :: rest) = "" :: renderColsAux first (i + 1) rest)
    ∧ (∀ e : Entry, e.has_gas_data = true ↔ 0 < e.gas_data.length) := by
  refine ⟨?_, ?_, ?_⟩
  · intro rs k cols e hlook hmem
    exact List.length_pos.mpr (aligned_entry_nonempty rs k cols e hlook hmem)
  · intro first i e rest h
    rw [renderColsAux_cons_some, if_neg (by simp [h])]
  · intro e
    simp [Entry.has_gas_data]

/-- C9 witness: positivity of the stored sample count at the concrete
`Token` report. -/
theorem c9_division_by_zero_unreachable_witness :
    0 < (Entry.deployment ⟨"Token", [200, 200]⟩).gas_data.length :=
  c9_division_by_zero_unreachable.1 [fileTokenA] "Token"
    [some (Entry.deployment ⟨"Token", [200, 200]⟩)]
    (Entry.deployment ⟨"Token", [200, 200]⟩) (by decide) (by decide)

/-- C8: for `N` input files every stored row is exactly the length-`N`
vector of per-file contributions (each file writes only its own index),
every rendered body row has `N` value cells plus the key cell, and an
absent slot renders as an empty cell. -/
theorem c8_row_arity :
    (∀ (rs : List GasReport) (k : String) (cols : List (Option Entry)),
        dataLookup k (buildData rs) = some cols →
          cols = rs.map (fun r => fileEntryAt k r) ∧ cols.length = rs.length)
    ∧ (∀ (rs : List GasReport) (row : List String), row ∈ renderBody rs →
        row.length = rs.length + 1)
    ∧ (∀ (first : Option Int) (i : Nat) (rest : List (Option Entry)),
        renderColsAux first i ((none : Option Entry) :: rest) =
          "" :: renderColsAux first (i + 1) rest) := by
  refine ⟨?_, ?_, ?_⟩
  · intro rs k cols hlook
    have h := (buildData_lookup_some rs k cols hlook).1
    exact ⟨h, by rw [h, List.length_map]⟩
  · intro rs row hrow
    rcases List.mem_map.mp hrow with ⟨p, hp, rfl⟩
    have hpmem : p ∈ buildData rs :=
      ((sortData_perm (buildData rs)).mem_iff).mp hp
    obtain ⟨k, v⟩ := p
    have hlook : dataLookup k (buildData rs) = some v :=
      dataLookup_of_mem _ _ _ hpmem (keysNodup_buildData rs)
    have hvlen : v.length = rs.length := by
      rw [(buildData_lookup_some rs k v hlook).1, List.length_map]
    show (renderRow (k, v)).length = rs.length + 1
    rw [renderRow]
    show (k :: renderColsAux none 0 v).length = rs.length + 1
    rw [List.length_cons, renderColsAux_length, hvlen]
  · intro first i rest
    exact renderColsAux_cons_none first i rest

/-- Helper: the first character of a method display key is the escape
character `0x1b`. -/
theorem methodKey_head (m : MethodIdentifier) :
    ∃ t, (methodKey m).data = '\x1b' :: t :=
  ⟨_, rfl⟩

/-- Helper: a `nameOk` string starts with a character of codepoint `≥ 0x20`. -/
theorem nameOk_head (s : String) (h : nameOk s = true) :
    ∃ c cs, s.data = c :: cs ∧ 32 ≤ c.toNat := by
  obtain ⟨d⟩ := s
  rcases d with _ | ⟨c, cs⟩
  · cases h
  · exact ⟨c, cs, rfl, of_decide_eq_true h⟩

/-- Helper: an entry stored in a row of the built map carries the row's key
and stems from one of the input files. -/
theorem buildData_mem_entry (rs : List GasReport) (p : String × List (Option Entry))
    (hp : p ∈ buildData rs) (e : Entry) (he : some e ∈ p.2) :
    entryKeyOf e = p.1 ∧ e.gas_data ≠ [] ∧ ∃ r ∈ rs, fileEntryAt p.1 r = some e := by
  have hlook := dataLookup_of_mem p.1 p.2 _ hp (keysNodup_buildData rs)
  have hcols := (buildData_lookup_some rs p.1 p.2 hlook).1
  rw [hcols] at he
  rcases List.mem_map.mp he with ⟨r, hr, hfe⟩
  exact ⟨(fileEntryAt_some _ _ _ hfe).1, (fileEntryAt_some _ _ _ hfe).2.1, r, hr, hfe⟩

/-- C8 witness: the two-file `Token` scenario has a two-slot row and a
three-cell body row. -/
theorem c8_row_arity_witness :
    [some (Entry.deployment ⟨"Token", [200, 200]⟩),
      some (Entry.deployment ⟨"Token", [220, 220]⟩)] =
        ([fileTokenA, fileTokenB]).map
          (fun r => fileEntryAt "Token" r) ∧
    ([some (Entry.deployment ⟨"Token", [200, 200]⟩),
      some (Entry.deployment ⟨"Token", [220, 220]⟩)] :
        List (Option Entry)).length = ([fileTokenA, fileTokenB]).length :=
  c8_row_arity.1 [fileTokenA, fileTokenB] "Token"
    [some (Entry.deployment ⟨"Token", [200, 200]⟩),
      some (Entry.deployment ⟨"Token", [220, 220]⟩)] (by decide)

/-- C5 counterexample: a deployment whose name starts with the control
character `0x01` sorts *before* a method row (the raw string order puts
`"\x01z"` below every `"\x1b[90m…"` method key), even though the structured
`Entry` comparator orders every method below every deployment.  So "all
method rows precede all deployment rows" fails as stated. -/
theorem c5_counterexample_row_order :
    renderBody [ctrlFile] =
      [["\x01z", "5 ( 0.0%)"], ["\x1b[90mA.\x1b[0mb", "7 ( 0.0%)"]]
    ∧ entryKeyOf (Entry.deployment ⟨"\x01z", [5]⟩) = "\x01z"
    ∧ methodKey ⟨"A", "b"⟩ = "\x1b[90mA.\x1b[0mb"
    ∧ Entry.cmpE (Entry.method ⟨"k", ⟨"A", "b"⟩, "s", [7], 1⟩)
        (Entry.deployment ⟨"\x01z", [5]⟩) = Ordering.lt := by
  have habs5 : absoluteCell 5 = "5 ( 0.0%)" := by
    rw [absoluteCell_tenths 5 0 (by norm_num [blockPercent, BLOCK_LIMIT, round_eq])]
    decide
  have habs7 : absoluteCell 7 = "7 ( 0.0%)" := by
    rw [absoluteCell_tenths 7 0 (by norm_num [blockPercent, BLOCK_LIMIT, round_eq])]
    decide
  refine ⟨?_, rfl, by decide, by decide⟩
  have hstep : renderBody [ctrlFile] =
      [["\x01z", absoluteCell 5], ["\x1b[90mA.\x1b[0mb", absoluteCell 7]] := by rfl
  rw [hstep, habs5, habs7]

/-- C5 amended: the body rows are in strictly ascending raw display-key
order (the string sort, not the structured `Entry` comparator), and under
the extra proviso that every deployment name starts with a printable
character (codepoint `≥ 0x20`), no deployment row ever precedes a method
row. -/
theorem c5_amended_sorted_by_raw_key :
    (∀ rs : List GasReport,
        List.Pairwise (fun a b => a.1 < b.1) (sortData (buildData rs)))
    ∧ (∀ rs : List GasReport,
        (∀ r ∈ rs, ∀ depl ∈ r.info.deployments, nameOk depl.name = true) →
        List.Pairwise (fun a b => ¬ (rowHasDeployment a ∧ rowHasMethod b))
          (sortData (buildData rs))) := by
  constructor
  · intro rs
    exact sortData_sorted_lt (buildData rs) (keysNodup_buildData rs)
  · intro rs hnames
    have hlt := sortData_sorted_lt (buildData rs) (keysNodup_buildData rs)
    refine hlt.imp_of_mem ?_
    intro a b ha hb hab
    rintro ⟨⟨da, hda⟩, ⟨mb, hmb⟩⟩
    have ha' : a ∈ buildData rs := ((sortData_perm (buildData rs)).mem_iff).mp ha
    have hb' : b ∈ buildData rs := ((sortData_perm (buildData rs)).mem_iff).mp hb
    obtain ⟨hka, -, r, hr, hfe⟩ := buildData_mem_entry rs a ha' _ hda
    obtain ⟨hkb, -, -, -, -⟩ := buildData_mem_entry rs b hb' _ hmb
    have hprov := (fileEntryAt_some _ _ _ hfe).2.2
    have hok : nameOk a.1 = true := by
      rcases hprov with ⟨depl, hdmem, heq⟩ | ⟨p', hp', heq⟩
      · injection heq with h'
        subst h'
        have hna := hnames r hr _ hdmem
        rw [← hka]
        exact hna
      · exact absurd heq (by simp)
    obtain ⟨c, cs, hadata, hc⟩ := nameOk_head a.1 hok
    obtain ⟨t, hbdata⟩ := methodKey_head mb.method
    have hbdata' : b.1.data = '\x1b' :: t := by rw [← hkb]; exact hbdata
    have hlt_char : ('\x1b' : Char) < c := by
      rw [Char.lt_def]
      show ('\x1b' : Char).val.toNat < c.val.toNat
      have h1 : ('\x1b' : Char).val.toNat = 27 := rfl
      have h2 : c.toNat = c.val.toNat := rfl
      omega
    have hblt : b.1 < a.1 := by
      rw [String.lt_iff_toList_lt]
      show b.1.data < a.1.data
      rw [hbdata', hadata]
      exact List.Lex.rel hlt_char
    exact (lt_asymm hblt) hab

/-- C5 witness: the amended method-before-deployment property at a concrete
report with a printable deployment name. -/
theorem c5_amended_sorted_by_raw_key_witness :
    List.Pairwise (fun a b => ¬ (rowHasDeployment a ∧ rowHasMethod b))
      (sortData (buildData [mixedFile])) :=
  c5_amended_sorted_by_raw_key.2 [mixedFile] (by decide)

/-- C6 counterexample: for the two-file `Token` scenario the first value
cell of the row renders the percent-of-block-limit as `0.0`, not `0.7`:
`100 * 200 / 30000000` rounded to one decimal place is `0.0`, so the cell
is `200 ( 0.0%)` and differs from the claimed `200 (0.7%)`. -/
theorem c6_counterexample_block_percent :
    absoluteCell 200 ≠ "200 (0.7%)"
    ∧ renderBody [fileTokenA, fileTokenB] =
        [["Token", absoluteCell 200, deltaCell 220 200]]
    ∧ round (10 * blockPercent 200) = 0 := by
  have habs : absoluteCell 200 = "200 ( 0.0%)" := by
    rw [absoluteCell_tenths 200 0 (by norm_num [blockPercent, BLOCK_LIMIT, round_eq])]
    decide
  refine ⟨?_, by rfl, by norm_num [blockPercent, BLOCK_LIMIT, round_eq]⟩
  rw [habs]
  decide

/-- C6 amended: the scenario row is `Token | 200 ( 0.0%) | +20 (+10.0%)`
with the delta cell red-flagged (color 91), where `0.0` is
`100 * 200 / 30000000` rounded to one decimal place. -/
theorem c6_amended_token_row :
    renderBody [fileTokenA, fileTokenB] =
      [["Token", "200 ( 0.0%)", "\x1b[91m+20 (+10.0%)\x1b[0m"]]
    ∧ colorCode (deltaPercent 220 200) = 91
    ∧ round (10 * blockPercent 200) = 0 := by
  have habs : absoluteCell 200 = "200 ( 0.0%)" := by
    rw [absoluteCell_tenths 200 0 (by norm_num [blockPercent, BLOCK_LIMIT, round_eq])]
    decide
  have hp : deltaPercent 220 200 = 10 := by norm_num [deltaPercent]
  have hc : colorCode (deltaPercent 220 200) = 91 := by
    rw [hp, colorCode, if_pos]
    norm_num [MARGIN]
  have hr : round (10 * deltaPercent 220 200) = 100 := by
    rw [hp]; norm_num [round_eq]
  have hdel : deltaCell 220 200 = "\x1b[91m+20 (+10.0%)\x1b[0m" := by
    rw [deltaCell_parts 220 200 100 91 (by decide) (by decide) hr hc]
    decide
  refine ⟨?_, hc, by norm_num [blockPercent, BLOCK_LIMIT, round_eq]⟩
  have hstep : renderBody [fileTokenA, fileTokenB] =
      [["Token", absoluteCell 200, deltaCell 220 200]] := by rfl
  rw [hstep, habs, hdel]

/-- C10 counterexample: two method records with *different*
`(contract, method)` pairs can collide on the formatted display key; then
the unspecified method-map iteration order decides which record's average is
rendered, so the output is not determined by the inputs even though no two
records share a `(contract, method)` pair. -/
theorem c10_counterexample_iteration_order :
    renderBody [collideFileA] ≠ renderBody [collideFileB]
    ∧ collideFileB.info.methods.Perm collideFileA.info.methods
    ∧ collideM1.method ≠ collideM2.method
    ∧ methodKey collideM1.method = methodKey collideM2.method := by
  have habs200 : absoluteCell 200 = "200 ( 0.0%)" := by
    rw [absoluteCell_tenths 200 0 (by norm_num [blockPercent, BLOCK_LIMIT, round_eq])]
    decide
  have habs100 : absoluteCell 100 = "100 ( 0.0%)" := by
    rw [absoluteCell_tenths 100 0 (by norm_num [blockPercent, BLOCK_LIMIT, round_eq])]
    decide
  refine ⟨?_, by decide, by decide, by decide⟩
  have h1 : renderBody [collideFileA] =
      [["\x1b[90mA.\x1b[0mB.\x1b[0mC", absoluteCell 200]] := by rfl
  have h2 : renderBody [collideFileB] =
      [["\x1b[90mA.\x1b[0mB.\x1b[0mC", absoluteCell 100]] := by rfl
  rw [h1, h2, habs200, habs100]
  decide

/-- Helper: under the deployment-equality and method-permutation relation,
with collision-free formatted keys, each file contributes the same entry at
every display key. -/
theorem map_fileEntryAt_eq (k : String) :
    ∀ (rs rs' : List GasReport),
      List.Forall₂ (fun r r' =>
        r.info.deployments = r'.info.deployments ∧
        r.info.methods.Perm r'.info.methods) rs rs' →
      (∀ r ∈ rs, methodsNodupOk r) →
      rs.map (fileEntryAt k) = rs'.map (fileEntryAt k) := by
  intro rs rs' hf
  induction hf with
  | nil => intro _; rfl
  | cons hpair hrest ih =>
    intro hn
    rw [List.map_cons, List.map_cons]
    rw [fileEntryAt_perm k _ _ hpair.1 hpair.2 (hn _ (List.mem_cons_self _ _)),
      ih (fun r hr => hn r (List.mem_cons_of_mem _ hr))]

/-- C10 amended: provided no two method records of a file that survive the
empty-sample filter share a formatted display key, the rendered table is
invariant under re-ordering each file's method map (the hash-map iteration
order), with deployments unchanged. -/
theorem c10_determinism_modulo_method_order :
    ∀ (rs rs' : List GasReport),
      List.Forall₂ (fun r r' =>
        r.info.deployments = r'.info.deployments ∧
        r.info.methods.Perm r'.info.methods) rs rs' →
      (∀ r ∈ rs, methodsNodupOk r) →
      renderBody rs = renderBody rs' := by
  intro rs rs' hf hn
  have hlookeq : ∀ k, dataLookup k (buildData rs) = dataLookup k (buildData rs') := by
    intro k
    rw [buildData_lookup, buildData_lookup, map_fileEntryAt_eq k rs rs' hf hn]
  have hperm : (buildData rs).Perm (buildData rs') :=
    perm_of_lookup_eq _ _ (keysNodup_buildData rs) (keysNodup_buildData rs') hlookeq
  have hsort : sortData (buildData rs) = sortData (buildData rs') :=
    sortData_eq_of_perm _ _ hperm (keysNodup_buildData rs)
  rw [renderBody, renderBody, hsort]

/-- C10 witness: permuting the two-method map of a collision-free report
leaves the rendered table unchanged. -/
theorem c10_determinism_modulo_method_order_witness :
    renderBody [permFileA] = renderBody [permFileB] :=
  c10_determinism_modulo_method_order [permFileA] [permFileB]
    (List.Forall₂.cons ⟨rfl, by decide⟩ List.Forall₂.nil) (by decide)

end GasDelta
